import Mathlib

/-!
Shallow embedding of the street-network simplification module
(Criticality/PCS/Criticality/network_lib/old/osmnx_simplify_overwrite.py).

The program operates on a directed multigraph (networkx-style) whose nodes
carry planar coordinates and an optional IsCentroid flag and whose edges
carry an attribute dictionary.  Attribute scalar values (lengths, osmids,
...) are modelled as exact rationals; a value that is a collection of
scalars (the outcome of an attribute merge) is modelled by the
AVal.multi constructor.  The per-edge geometry attribute -- whose mere
presence marks an edge as a product of a previous simplification run --
is modelled as an optional list of coordinates on the edge record.

Python recursion depth is modelled by an explicit fuel parameter on
build_path: a call that exhausts its fuel returns none, mirroring the
RecursionError that the path collector catches and turns into a skipped
chain.
-/

namespace OsmnxSimplify

/-- Planar coordinates of a node, mirroring the x and y node attributes. -/
abbrev Coord := Int × Int

/-- Attribute value of an edge: a scalar, or a collection of distinct
scalars produced by a previous attribute merge. -/
inductive AVal where
  | scalar (q : ℚ) : AVal
  | multi (qs : List ℚ) : AVal
deriving DecidableEq, Repr

/-- Numeric view of an attribute value, used when the code sums the
length attribute.  In an unsimplified input graph every attribute value
is a scalar, so the multi branch is never exercised by the program
(Python would raise on it). -/
def AVal.toQ : AVal → ℚ
  | .scalar q => q
  | .multi _ => 0

/-- Node attribute record: planar coordinates plus the optional
IsCentroid marker read by the endpoint classifier. -/
structure NodeData where
  x : Int
  y : Int
  IsCentroid : Option Int
deriving DecidableEq, Repr

/-- One directed edge of the multigraph: origin, destination, the
parallel-edge key, the attribute dictionary, and the optional geometry
attribute whose presence marks an already-simplified edge. -/
structure Edge where
  u : Nat
  v : Nat
  key : Nat
  attrs : List (String × AVal)
  geometry : Option (List Coord)
deriving DecidableEq, Repr

/-- Directed multigraph: node list, node-attribute table and edge list.
The attribute table is total, mirroring a dictionary lookup that the
program only ever performs on nodes of the graph. -/
structure Graph where
  nodes : List Nat
  node : Nat → NodeData
  edges : List Edge

/-- All parallel edges from u to v, in edge-list order (the inner
dictionary G.edge[u][v] of the Python multigraph). -/
def Graph.edgesBetween (G : Graph) (u v : Nat) : List Edge :=
  G.edges.filter fun e => e.u == u && e.v == v

/-- Distinct successor nodes of u (networkx G.successors). -/
def Graph.successors (G : Graph) (u : Nat) : List Nat :=
  ((G.edges.filter fun e => e.u == u).map fun e => e.v).dedup

/-- Distinct predecessor nodes of v (networkx G.predecessors). -/
def Graph.predecessors (G : Graph) (v : Nat) : List Nat :=
  ((G.edges.filter fun e => e.v == v).map fun e => e.u).dedup

/-- Number of outgoing edges, parallel edges counted (networkx
out_degree). -/
def Graph.out_degree (G : Graph) (u : Nat) : Nat :=
  (G.edges.filter fun e => e.u == u).length

/-- Number of incoming edges, parallel edges counted (networkx
in_degree). -/
def Graph.in_degree (G : Graph) (v : Nat) : Nat :=
  (G.edges.filter fun e => e.v == v).length

/-- Total degree of a node in a directed multigraph: in-degree plus
out-degree (networkx G.degree on a directed graph). -/
def Graph.degree (G : Graph) (n : Nat) : Nat :=
  G.in_degree n + G.out_degree n

/-- The set of neighbors of a node: predecessors and successors,
deduplicated (the Python set(list(predecessors) + list(successors))). -/
def neighborsOf (G : Graph) (n : Nat) : List Nat :=
  (G.predecessors n ++ G.successors n).dedup

/-- Dictionary lookup of an edge attribute (Python edge[key]); a missing
key is undefined behavior in the source and is modelled by a default
scalar. -/
def attrGet (e : Edge) (k : String) : AVal :=
  (e.attrs.lookup k).getD (AVal.scalar 0)

/-- The osmid attribute of every incoming and every outgoing edge of a
node, in the order the classifier collects them: all parallel edges from
each predecessor, then all parallel edges to each successor. -/
def edge_osmids (G : Graph) (n : Nat) : List AVal :=
  ((G.predecessors n).flatMap fun u => (G.edgesBetween u n).map fun e => attrGet e "osmid")
    ++ ((G.successors n).flatMap fun v => (G.edgesBetween n v).map fun e => attrGet e "osmid")

/-- Endpoint classifier is_endpoint: first-match rule chain over
centroid flag, self-loop, pure source/sink, the neighbor-count and
degree heuristic, and (non-strict mode only) the distinct-osmid test. -/
def is_endpoint (G : Graph) (n : Nat) (strict : Bool) : Bool :=
  let nbrs := neighborsOf G n
  let nn := nbrs.length
  let d := G.degree n
  if (G.node n).IsCentroid == some 1 then true
  else if n ∈ nbrs then true
  else if G.out_degree n == 0 || G.in_degree n == 0 then true
  else if !(nn == 2 && (d == 2 || d == 4)) then true
  else if !strict then decide (1 < (edge_osmids G n).dedup.length)
  else false

/-- Simplification guard is_simplified: true iff at least one edge
carries a geometry attribute. -/
def is_simplified (G : Graph) : Bool :=
  decide (0 < (G.edges.filter fun e => e.geometry.isSome).length)

/-- Ring-closure step performed by build_path once all successors of the
current node are exhausted: if the last node of the path is not an
endpoint and the first node of the path is a successor of the last, the
first node is appended to close the loop; otherwise the path is kept
as-is. -/
def closePath (G : Graph) (endpoints : List Nat) (path : List Nat) : List Nat :=
  if path.getLastD 0 ∉ endpoints ∧ path.headD 0 ∈ G.successors (path.getLastD 0) then
    path ++ [path.headD 0]
  else path

/-- One level of the build_path successor loop.  recur is the recursive
call available at the current recursion depth.  A successor already on
the path is skipped; a successor that is an endpoint completes the path;
otherwise the walk recurses from the successor, a failure (exhausted
recursion depth) propagating outward.  When the successor list is
exhausted the ring-closure step runs. -/
def bp_loop (G : Graph) (endpoints : List Nat)
    (recur : Nat → List Nat → Option (List Nat)) :
    List Nat → List Nat → Option (List Nat)
  | [], path => some (closePath G endpoints path)
  | s :: rest, path =>
    if s ∈ path then bp_loop G endpoints recur rest path
    else if s ∈ endpoints then some (path ++ [s])
    else
      match recur s (path ++ [s]) with
      | none => none
      | some p => bp_loop G endpoints recur rest p

/-- Recursive path builder build_path.  The fuel parameter models the
Python recursion-depth limit: entering a call with no fuel left models
the RecursionError that the collector catches. -/
def build_path (G : Graph) (endpoints : List Nat) :
    Nat → Nat → List Nat → Option (List Nat)
  | 0, _, _ => none
  | fuel + 1, n, path =>
    bp_loop G endpoints (build_path G endpoints fuel) (G.successors n) path

/-- The endpoint set of the graph, computed by filtering every node
through the classifier. -/
def endpointList (G : Graph) (strict : Bool) : List Nat :=
  G.nodes.filter fun n => is_endpoint G n strict

/-- Path collector get_paths_to_simplify: for every endpoint and every
non-endpoint successor of it, build one chain seeded with the pair; an
attempt that exhausts the recursion depth contributes nothing and the
collection continues with the next pair. -/
def get_paths_to_simplify (G : Graph) (strict : Bool) (fuel : Nat) :
    List (List Nat) :=
  let endpoints := endpointList G strict
  endpoints.flatMap fun n =>
    (G.successors n).filterMap fun s =>
      if s ∈ endpoints then none
      else build_path G endpoints fuel s [n, s]

/-- The edge the rewriter uses between two consecutive chain nodes: the
parallel edge with key 0 (the Python edges[0] dictionary access).  The
default is never reached when the chain nodes are in fact connected,
which the collector guarantees. -/
def chainEdge (G : Graph) (u v : Nat) : Edge :=
  ((G.edgesBetween u v).find? fun e => e.key == 0).getD
    { u := u, v := v, key := 0, attrs := [], geometry := none }

/-- Consecutive node pairs of a chain (the zip of the path with its
tail). -/
def consecutivePairs (path : List Nat) : List (Nat × Nat) :=
  path.zip path.tail

/-- The edges the rewriter merges for one chain, one per consecutive
node pair. -/
def chainEdges (G : Graph) (path : List Nat) : List Edge :=
  (consecutivePairs path).map fun p => chainEdge G p.1 p.2

/-- Consecutive chain-node pairs for which the rewriter records the
multiple-parallel-edge warning (the pairs whose edge count is not
exactly one). -/
def multiEdgeWarnings (G : Graph) (path : List Nat) : List (Nat × Nat) :=
  (consecutivePairs path).filter fun p =>
    !((G.edgesBetween p.1 p.2).length == 1)

/-- Append a value to the list held for a key of the accumulating
attribute dictionary, creating the entry if the key is new. -/
def addVal (acc : List (String × List AVal)) (k : String) (v : AVal) :
    List (String × List AVal) :=
  if acc.any fun kv => kv.1 == k then
    acc.map fun kv => if kv.1 == k then (kv.1, kv.2 ++ [v]) else kv
  else acc ++ [(k, [v])]

/-- Accumulate every attribute of every chain edge into one dictionary
from keys to the list of values seen, in traversal order. -/
def accumAttrs (es : List Edge) : List (String × List AVal) :=
  es.foldl (fun acc e => e.attrs.foldl (fun acc2 kv => addVal acc2 kv.1 kv.2) acc) []

/-- The accumulated value list of one key (empty when the key never
occurred). -/
def attrVals (acc : List (String × List AVal)) (k : String) : List AVal :=
  (((acc.find? fun kv => kv.1 == k).map fun kv => kv.2).getD [])

/-- Consolidation of one accumulated attribute: a key with a single
distinct value collapses to that value, any other key except length
keeps the list of distinct values; the length key is left untouched here
because the rewriter overwrites it with the numeric sum. -/
def consolidate (k : String) (vals : List AVal) : AVal :=
  if vals.dedup.length == 1 && !(k == "length") then vals.headD (AVal.scalar 0)
  else if !(k == "length") then AVal.multi (vals.map AVal.toQ).dedup
  else AVal.multi (vals.map AVal.toQ)

/-- Numeric sum of an accumulated value list (the Python sum call on the
length entry). -/
def lengthOfVals (vals : List AVal) : ℚ :=
  (vals.map AVal.toQ).sum

/-- The length attribute of the synthetic edge of a chain: the sum of
the accumulated length values of its edges. -/
def newEdgeLength (G : Graph) (path : List Nat) : ℚ :=
  lengthOfVals (attrVals (accumAttrs (chainEdges G path)) "length")

/-- Coordinates of a node, as the rewriter reads them. -/
def coordOf (G : Graph) (n : Nat) : Coord :=
  ((G.node n).x, (G.node n).y)

/-- The geometry of the synthetic edge of a chain: the coordinates of
every chain node, in chain order. -/
def newEdgeGeometry (G : Graph) (path : List Nat) : List Coord :=
  path.map fun n => coordOf G n

/-- The merged (consolidated) attribute dictionary of a chain. -/
def mergedAttrs (G : Graph) (path : List Nat) : List (String × AVal) :=
  (accumAttrs (chainEdges G path)).map fun kv => (kv.1, consolidate kv.1 kv.2)

/-- Overwrite (or create) one key of an attribute dictionary. -/
def setAttr (l : List (String × AVal)) (k : String) (v : AVal) :
    List (String × AVal) :=
  if l.any fun kv => kv.1 == k then
    l.map fun kv => if kv.1 == k then (kv.1, v) else kv
  else l ++ [(k, v)]

/-- The synthetic edge the rewriter installs for one chain: origin the
first chain node, destination the last, merged attributes with the
length overwritten by the chain sum, and the concatenated geometry. -/
def newEdge (G : Graph) (path : List Nat) : Edge :=
  { u := path.headD 0
    v := path.getLastD 0
    key := 0
    attrs := setAttr (mergedAttrs G path) "length" (AVal.scalar (newEdgeLength G path))
    geometry := some (newEdgeGeometry G path) }

/-- The values an edge carries for one attribute key, in dictionary
order. -/
def edgeKeyVals (k : String) (e : Edge) : List AVal :=
  (e.attrs.filter fun kv => kv.1 == k).map Prod.snd

/-- The interior nodes of one chain (everything but the first and last
entry, the Python path[1:-1]). -/
def interiorNodes (path : List Nat) : List Nat :=
  (path.drop 1).dropLast

/-- Graph rewriter simplify_graph: reject an already-simplified graph,
collect the chains, install one synthetic edge per chain and remove
every interior node together with its incident edges. -/
def simplify_graph (G : Graph) (strict : Bool) (fuel : Nat) :
    Except String Graph :=
  if is_simplified G then
    Except.error "This graph has already been simplified, cannot simplify it again."
  else
    let paths := get_paths_to_simplify G strict fuel
    let toRemove := paths.flatMap fun p => interiorNodes p
    let withNew : List Edge := G.edges ++ paths.map fun p => newEdge G p
    Except.ok
      { nodes := G.nodes.filter fun n => !(toRemove.contains n)
        node := G.node
        edges := withNew.filter fun e =>
          !(toRemove.contains e.u) && !(toRemove.contains e.v) }

/-! Concrete example graphs, used to exercise the embedding on closed
inputs. -/

/-- A three-node one-way line 1 -> 2 -> 3 with a shared osmid and
lengths 3 and 4: the middle node is an interior shape node. -/
def exLine : Graph :=
  { nodes := [1, 2, 3]
    node := fun n =>
      if n == 1 then ⟨0, 0, none⟩ else if n == 2 then ⟨1, 1, none⟩ else ⟨2, 2, none⟩
    edges :=
      [ ⟨1, 2, 0, [("osmid", AVal.scalar 10), ("length", AVal.scalar 3)], none⟩
      , ⟨2, 3, 0, [("osmid", AVal.scalar 10), ("length", AVal.scalar 4)], none⟩ ] }

/-- The line graph with its middle node flagged as a centroid. -/
def exCentroidLine : Graph :=
  { nodes := [1, 2, 3]
    node := fun n => if n == 2 then ⟨1, 1, some 1⟩ else ⟨0, 0, none⟩
    edges :=
      [ ⟨1, 2, 0, [("osmid", AVal.scalar 10), ("length", AVal.scalar 3)], none⟩
      , ⟨2, 3, 0, [("osmid", AVal.scalar 10), ("length", AVal.scalar 4)], none⟩ ] }

/-- A graph already carrying a geometry attribute on its only edge. -/
def exSimplified : Graph :=
  { nodes := [1, 2]
    node := fun _ => ⟨0, 0, none⟩
    edges := [ ⟨1, 2, 0, [("length", AVal.scalar 5)], some [(0, 0), (1, 1)] ⟩ ] }

/-- A two-way street 1 <-> 2 <-> 3 whose two segments carry different
osmids: the middle node has two neighbors and degree four. -/
def exTwoWay : Graph :=
  { nodes := [1, 2, 3]
    node := fun _ => ⟨0, 0, none⟩
    edges :=
      [ ⟨1, 2, 0, [("osmid", AVal.scalar 7), ("length", AVal.scalar 1)], none⟩
      , ⟨2, 1, 0, [("osmid", AVal.scalar 7), ("length", AVal.scalar 1)], none⟩
      , ⟨2, 3, 0, [("osmid", AVal.scalar 8), ("length", AVal.scalar 1)], none⟩
      , ⟨3, 2, 0, [("osmid", AVal.scalar 8), ("length", AVal.scalar 1)], none⟩ ] }

/-- An isolated directed ring 1 -> 2 -> 3 -> 4 -> 1 with no endpoint at
all. -/
def exRing : Graph :=
  { nodes := [1, 2, 3, 4]
    node := fun _ => ⟨0, 0, none⟩
    edges :=
      [ ⟨1, 2, 0, [("osmid", AVal.scalar 7), ("length", AVal.scalar 1)], none⟩
      , ⟨2, 3, 0, [("osmid", AVal.scalar 7), ("length", AVal.scalar 1)], none⟩
      , ⟨3, 4, 0, [("osmid", AVal.scalar 7), ("length", AVal.scalar 1)], none⟩
      , ⟨4, 1, 0, [("osmid", AVal.scalar 7), ("length", AVal.scalar 1)], none⟩ ] }

/-- A single node with a self-loop edge. -/
def exLoop : Graph :=
  { nodes := [5]
    node := fun _ => ⟨0, 0, none⟩
    edges := [ ⟨5, 5, 0, [("osmid", AVal.scalar 7), ("length", AVal.scalar 1)], none⟩ ] }

/-- Two parallel edges between the same pair of nodes, keyed 0 and 1. -/
def exParallel : Graph :=
  { nodes := [1, 2]
    node := fun _ => ⟨0, 0, none⟩
    edges :=
      [ ⟨1, 2, 0, [("osmid", AVal.scalar 7), ("length", AVal.scalar 1)], none⟩
      , ⟨1, 2, 1, [("osmid", AVal.scalar 9), ("length", AVal.scalar 2)], none⟩ ] }

/-! Helper lemmas shared by the claim theorems. -/

lemma getLast?_map' {α β : Type _} (f : α → β) :
    ∀ (l : List α), (l.map f).getLast? = l.getLast?.map f
  | [] => rfl
  | [_] => rfl
  | a :: b :: t => by
    rw [List.map_cons, List.map_cons, List.getLast?_cons_cons, List.getLast?_cons_cons,
      ← List.map_cons]
    exact getLast?_map' f (b :: t)

lemma getLast?_eq_some_getLastD {α : Type _} (l : List α) (d : α) (h : l ≠ []) :
    l.getLast? = some (l.getLastD d) := by
  rw [List.getLastD_eq_getLast?]
  obtain ⟨x, hx⟩ := Option.isSome_iff_exists.mp (List.getLast?_isSome.mpr h)
  rw [hx]
  rfl

/-! Claim theorems. -/

/-- Claim C1: on a graph in which at least one edge carries a geometry
attribute, simplify_graph fails with the precondition error; in this
pure embedding the input value is untouched, so the failure is atomic. -/
theorem already_simplified_rejected (G : Graph) (strict : Bool) (fuel : Nat)
    (h : ∃ e ∈ G.edges, e.geometry.isSome = true) :
    simplify_graph G strict fuel =
      Except.error "This graph has already been simplified, cannot simplify it again." := by
  obtain ⟨e, he, hg⟩ := h
  have hmem : e ∈ G.edges.filter fun e => e.geometry.isSome :=
    List.mem_filter.mpr ⟨he, hg⟩
  have hs : is_simplified G = true := by
    unfold is_simplified
    rw [decide_eq_true_eq]
    exact List.length_pos_of_mem hmem
  simp [simplify_graph, hs]

/-- Claim C1 witness at a concrete already-simplified graph. -/
theorem already_simplified_rejected_w :
    (∃ e ∈ exSimplified.edges, e.geometry.isSome = true)
    ∧ simplify_graph exSimplified true 10 =
        Except.error "This graph has already been simplified, cannot simplify it again." :=
  ⟨by decide, already_simplified_rejected exSimplified true 10 (by decide)⟩

/-- Claim C4: the geometry of the synthetic edge of a chain is the
ordered coordinate sequence of every chain node, endpoint-inclusive, and
its first and last points are the coordinates of the edge's origin and
destination. -/
theorem geometry_endpoint_fidelity (G : Graph) (path : List Nat) (h : path ≠ []) :
    (newEdge G path).geometry = some (newEdgeGeometry G path)
    ∧ newEdgeGeometry G path = path.map (coordOf G)
    ∧ (newEdgeGeometry G path).head? = some (coordOf G ((newEdge G path).u))
    ∧ (newEdgeGeometry G path).getLast? = some (coordOf G ((newEdge G path).v)) := by
  obtain ⟨a, t, rfl⟩ := List.exists_cons_of_ne_nil h
  refine ⟨rfl, rfl, by simp [newEdge, newEdgeGeometry], ?_⟩
  show ((a :: t).map (coordOf G)).getLast? = _
  rw [getLast?_map', getLast?_eq_some_getLastD (a :: t) 0 (by simp)]
  rfl

/-- Claim C4 witness at a concrete chain of the line graph. -/
theorem geometry_endpoint_fidelity_w :
    ([1, 2, 3] : List Nat) ≠ []
    ∧ ((newEdge exLine [1, 2, 3]).geometry = some (newEdgeGeometry exLine [1, 2, 3])
        ∧ newEdgeGeometry exLine [1, 2, 3] = [1, 2, 3].map (coordOf exLine)
        ∧ (newEdgeGeometry exLine [1, 2, 3]).head? =
            some (coordOf exLine ((newEdge exLine [1, 2, 3]).u))
        ∧ (newEdgeGeometry exLine [1, 2, 3]).getLast? =
            some (coordOf exLine ((newEdge exLine [1, 2, 3]).v))) :=
  ⟨by decide, geometry_endpoint_fidelity exLine [1, 2, 3] (by decide)⟩

/-- Claim C10: a node classified as an endpoint in strict mode is also
classified as an endpoint in non-strict mode: the non-strict rule only
ever adds endpoints. -/
theorem strict_endpoints_subset_nonstrict (G : Graph) (v : Nat)
    (h : is_endpoint G v true = true) : is_endpoint G v false = true := by
  unfold is_endpoint at h ⊢
  split_ifs at h ⊢ <;> simp_all
  tauto

/-- Claim C10 witness at a concrete self-loop node. -/
theorem strict_endpoints_subset_nonstrict_w :
    is_endpoint exLoop 5 true = true ∧ is_endpoint exLoop 5 false = true :=
  ⟨by decide, strict_endpoints_subset_nonstrict exLoop 5 (by decide)⟩

/-- Claim C5: a non-centroid, non-self-loop node with positive in- and
out-degree, exactly two distinct neighbors and degree two or four is not
an endpoint in strict mode, and in non-strict mode it is an endpoint
exactly when its incident edges carry more than one distinct osmid. -/
theorem two_neighbor_osmid_rule (G : Graph) (v : Nat)
    (hcent : ¬ (G.node v).IsCentroid = some 1)
    (hself : v ∉ neighborsOf G v)
    (hin : 0 < G.in_degree v) (hout : 0 < G.out_degree v)
    (hn : (neighborsOf G v).length = 2)
    (hd : G.degree v = 2 ∨ G.degree v = 4) :
    is_endpoint G v true = false
    ∧ (is_endpoint G v false = true ↔ 1 < (edge_osmids G v).dedup.length) := by
  rcases hd with hd | hd <;>
    simp [is_endpoint, hcent, hself, hn, hd, Nat.pos_iff_ne_zero.mp hin,
      Nat.pos_iff_ne_zero.mp hout]

/-- Claim C5 witness at the middle node of the two-way street with two
distinct osmids. -/
theorem two_neighbor_osmid_rule_w :
    (¬ (exTwoWay.node 2).IsCentroid = some 1)
    ∧ 2 ∉ neighborsOf exTwoWay 2
    ∧ 0 < exTwoWay.in_degree 2 ∧ 0 < exTwoWay.out_degree 2
    ∧ (neighborsOf exTwoWay 2).length = 2
    ∧ (exTwoWay.degree 2 = 2 ∨ exTwoWay.degree 2 = 4)
    ∧ (is_endpoint exTwoWay 2 true = false
        ∧ (is_endpoint exTwoWay 2 false = true ↔ 1 < (edge_osmids exTwoWay 2).dedup.length)) :=
  ⟨by decide, by decide, by decide, by decide, by decide, by decide,
    two_neighbor_osmid_rule exTwoWay 2 (by decide) (by decide) (by decide) (by decide)
      (by decide) (by decide)⟩

lemma bp_loop_skip_all (G : Graph) (endpoints : List Nat)
    (recur : Nat → List Nat → Option (List Nat)) :
    ∀ (succs path : List Nat), (∀ s ∈ succs, s ∈ path) →
      bp_loop G endpoints recur succs path = some (closePath G endpoints path) := by
  intro succs
  induction succs with
  | nil => intro path _; rfl
  | cons s rest ih =>
    intro path h
    have hs : s ∈ path := h s (List.mem_cons_self s rest)
    rw [bp_loop, if_pos hs]
    exact ih path fun t ht => h t (List.mem_cons_of_mem s ht)

/-- Claim C8: when every successor of the current node is already on the
path (the loop exhausts without reaching an endpoint), build_path
applies the ring-closure rule: if the last path node is not an endpoint
and the first path node is a successor of the last, the first node is
appended; otherwise the path is returned as-is. -/
theorem exhausted_successors_ring_closure (G : Graph) (endpoints : List Nat)
    (fuel : Nat) (n : Nat) (path : List Nat)
    (hall : ∀ s ∈ G.successors n, s ∈ path) :
    build_path G endpoints (fuel + 1) n path = some (closePath G endpoints path)
    ∧ (path.getLastD 0 ∉ endpoints ∧ path.headD 0 ∈ G.successors (path.getLastD 0) →
        closePath G endpoints path = path ++ [path.headD 0])
    ∧ (¬ (path.getLastD 0 ∉ endpoints ∧ path.headD 0 ∈ G.successors (path.getLastD 0)) →
        closePath G endpoints path = path) := by
  refine ⟨?_, ?_, ?_⟩
  · rw [build_path]
    exact bp_loop_skip_all G endpoints (build_path G endpoints fuel) (G.successors n) path hall
  · intro hc
    rw [closePath, if_pos hc]
  · intro hc
    rw [closePath, if_neg hc]

/-- Claim C8 witness on the isolated ring, where the walk from node 4
has exhausted its successors and closes the loop back to node 1. -/
theorem exhausted_successors_ring_closure_w :
    (∀ s ∈ exRing.successors 4, s ∈ [1, 2, 3, 4])
    ∧ (build_path exRing [] 1 4 [1, 2, 3, 4] = some (closePath exRing [] [1, 2, 3, 4])
        ∧ (([1, 2, 3, 4] : List Nat).getLastD 0 ∉ ([] : List Nat)
            ∧ ([1, 2, 3, 4] : List Nat).headD 0 ∈ exRing.successors (([1, 2, 3, 4] : List Nat).getLastD 0) →
            closePath exRing [] [1, 2, 3, 4] = [1, 2, 3, 4] ++ [([1, 2, 3, 4] : List Nat).headD 0])
        ∧ (¬ (([1, 2, 3, 4] : List Nat).getLastD 0 ∉ ([] : List Nat)
            ∧ ([1, 2, 3, 4] : List Nat).headD 0 ∈ exRing.successors (([1, 2, 3, 4] : List Nat).getLastD 0)) →
            closePath exRing [] [1, 2, 3, 4] = [1, 2, 3, 4])) :=
  ⟨by decide, exhausted_successors_ring_closure exRing [] 0 4 [1, 2, 3, 4] (by decide)⟩

/-- Claim C7: a chain attempt that fails (exhausted recursion depth,
modelled by the fuel giving out) only loses that attempt: every
endpoint/successor pair whose chain construction succeeds still has its
chain in the collector's output, and the collector itself always
returns. -/
theorem collector_keeps_remaining_chains (G : Graph) (strict : Bool) (fuel : Nat)
    (E s : Nat) (p : List Nat)
    (hE : E ∈ endpointList G strict)
    (hs : s ∈ G.successors E)
    (hsne : s ∉ endpointList G strict)
    (hbp : build_path G (endpointList G strict) fuel s [E, s] = some p) :
    p ∈ get_paths_to_simplify G strict fuel := by
  unfold get_paths_to_simplify
  refine List.mem_flatMap.mpr ⟨E, hE, List.mem_filterMap.mpr ⟨s, hs, ?_⟩⟩
  rw [if_neg hsne]
  exact hbp

/-- Claim C7 witness: on the line graph the chain from endpoint 1
through node 2 is produced and collected even at the exact fuel bound,
while the zero-fuel collector drops every attempt without failing. -/
theorem collector_keeps_remaining_chains_w :
    1 ∈ endpointList exLine true
    ∧ 2 ∈ exLine.successors 1
    ∧ 2 ∉ endpointList exLine true
    ∧ build_path exLine (endpointList exLine true) 2 2 [1, 2] = some [1, 2, 3]
    ∧ [1, 2, 3] ∈ get_paths_to_simplify exLine true 2 :=
  ⟨by decide, by decide, by decide, by decide,
    collector_keeps_remaining_chains exLine true 2 1 2 [1, 2, 3] (by decide) (by decide)
      (by decide) (by decide)⟩

/-- Claim C9: a consecutive chain pair with more than one parallel edge
is recorded in the warning list, and the rewriter proceeds with exactly
the first available edge (the parallel edge keyed 0) for the merge. -/
theorem parallel_edges_warn_and_proceed (G : Graph) (path : List Nat) (u v : Nat)
    (e : Edge)
    (hmem : (u, v) ∈ consecutivePairs path)
    (hmult : 1 < (G.edgesBetween u v).length)
    (hfind : ((G.edgesBetween u v).find? fun e => e.key == 0) = some e) :
    (u, v) ∈ multiEdgeWarnings G path
    ∧ chainEdge G u v = e
    ∧ e ∈ G.edgesBetween u v := by
  refine ⟨?_, ?_, List.mem_of_find?_eq_some hfind⟩
  · refine List.mem_filter.mpr ⟨hmem, ?_⟩
    simp only [Bool.not_eq_true', beq_eq_false_iff_ne, ne_eq]
    omega
  · rw [chainEdge, hfind]
    rfl

/-- Claim C9 witness on the two parallel edges of exParallel. -/
theorem parallel_edges_warn_and_proceed_w :
    (1, 2) ∈ consecutivePairs [1, 2]
    ∧ 1 < (exParallel.edgesBetween 1 2).length
    ∧ ((exParallel.edgesBetween 1 2).find? fun e => e.key == 0) =
        some ⟨1, 2, 0, [("osmid", AVal.scalar 7), ("length", AVal.scalar 1)], none⟩
    ∧ ((1, 2) ∈ multiEdgeWarnings exParallel [1, 2]
        ∧ chainEdge exParallel 1 2 =
            ⟨1, 2, 0, [("osmid", AVal.scalar 7), ("length", AVal.scalar 1)], none⟩
        ∧ (⟨1, 2, 0, [("osmid", AVal.scalar 7), ("length", AVal.scalar 1)], none⟩ : Edge) ∈
            exParallel.edgesBetween 1 2) :=
  ⟨by decide, by decide, by decide,
    parallel_edges_warn_and_proceed exParallel [1, 2] 1 2 _ (by decide) (by decide) (by decide)⟩

lemma attrVals_addVal (acc : List (String × List AVal)) (k k' : String) (v : AVal) :
    attrVals (addVal acc k' v) k =
      if k' = k then attrVals acc k ++ [v] else attrVals acc k := by
  unfold addVal attrVals
  by_cases hany : acc.any (fun kv => kv.1 == k') = true
  · rw [if_pos hany]
    have hg : ((fun kv : String × List AVal => kv.1 == k) ∘
        fun kv : String × List AVal => if kv.1 == k' then (kv.1, kv.2 ++ [v]) else kv) =
        fun kv : String × List AVal => kv.1 == k := by
      funext kv
      by_cases h : kv.1 = k' <;> simp [h]
    rw [List.find?_map, hg]
    cases hf : acc.find? fun kv => kv.1 == k with
    | none =>
      by_cases hk : k' = k
      · subst hk
        obtain ⟨x, hx, hpx⟩ := List.any_eq_true.mp hany
        have := List.find?_eq_none.mp hf x hx
        simp [hpx] at this
      · simp [hf, hk]
    | some kv0 =>
      have hkv0 := List.find?_some hf
      have hkv0b : (kv0.1 == k) = true := hkv0
      by_cases hk : k' = k
      · subst hk
        simp [hf, hkv0b, beq_iff_eq.mp hkv0b]
      · have hne : (kv0.1 == k') = false := by
          rw [beq_eq_false_iff_ne]
          intro hh
          exact hk (hh ▸ beq_iff_eq.mp hkv0b)
        simp [hf, hne, hk, beq_eq_false_iff_ne.mp hne]
  · rw [if_neg hany]
    have hnone : ∀ x ∈ acc, ¬ (x.1 == k') = true := fun x hx hpx =>
      hany (List.any_eq_true.mpr ⟨x, hx, hpx⟩)
    rw [List.find?_append]
    by_cases hk : k' = k
    · subst hk
      have hfa : (acc.find? fun kv => kv.1 == k') = none := List.find?_eq_none.mpr hnone
      rw [hfa]
      simp
    · have hkk : (k' == k) = false := beq_eq_false_iff_ne.mpr hk
      have hone : (([(k', [v])] : List (String × List AVal)).find? fun kv => kv.1 == k) = none := by
        simp [List.find?, hkk]
      rw [hone]
      simp [hk]

lemma attrVals_attrs_foldl (attrs : List (String × AVal)) (k : String) :
    ∀ acc, attrVals (attrs.foldl (fun a2 kv => addVal a2 kv.1 kv.2) acc) k
      = attrVals acc k ++ (attrs.filter fun kv => kv.1 == k).map Prod.snd := by
  induction attrs with
  | nil => intro acc; simp
  | cons kv rest ih =>
    intro acc
    rw [List.foldl_cons, ih, attrVals_addVal]
    by_cases hk : kv.1 = k
    · simp [List.filter_cons, hk]
    · simp [List.filter_cons, beq_eq_false_iff_ne.mpr hk, hk]

lemma attrVals_accum_aux (es : List Edge) (k : String) :
    ∀ acc, attrVals (es.foldl
        (fun acc2 e => e.attrs.foldl (fun a2 kv => addVal a2 kv.1 kv.2) acc2) acc) k
      = attrVals acc k ++ es.flatMap (edgeKeyVals k) := by
  induction es with
  | nil => intro acc; simp
  | cons e rest ih =>
    intro acc
    rw [List.foldl_cons, ih, attrVals_attrs_foldl]
    simp [edgeKeyVals]

lemma attrVals_accumAttrs (es : List Edge) (k : String) :
    attrVals (accumAttrs es) k = es.flatMap (edgeKeyVals k) := by
  rw [accumAttrs, attrVals_accum_aux]
  simp [attrVals]

lemma lookup_map_overwrite (k : String) (v : AVal) :
    ∀ (l : List (String × AVal)), l.any (fun kv => kv.1 == k) = true →
      (l.map fun kv => if kv.1 == k then (kv.1, v) else kv).lookup k = some v := by
  intro l
  induction l with
  | nil => intro h; simp at h
  | cons hd tl ih =>
    intro h
    obtain ⟨a, b⟩ := hd
    by_cases hhd : a = k
    · subst hhd
      have hf : (if (((a, b) : String × AVal).1 == a) = true then (((a, b) : String × AVal).1, v)
          else ((a, b) : String × AVal)) = ((a, v) : String × AVal) := by
        simp
      rw [List.map_cons, hf]
      simp [List.lookup]
    · have h1 : (a == k) = false := beq_eq_false_iff_ne.mpr hhd
      have h2 : (k == a) = false := beq_eq_false_iff_ne.mpr fun hh => hhd hh.symm
      have htl : tl.any (fun kv => kv.1 == k) = true := by
        rcases List.any_eq_true.mp h with ⟨x, hx, hpx⟩
        rcases List.mem_cons.mp hx with rfl | hx'
        · simp [h1] at hpx
        · exact List.any_eq_true.mpr ⟨x, hx', hpx⟩
      rw [List.map_cons]
      have hf : (if (((a, b) : String × AVal).1 == k) = true then (((a, b) : String × AVal).1, v)
          else ((a, b) : String × AVal)) = ((a, b) : String × AVal) := by
        rw [if_neg]
        simp [h1]
      rw [hf]
      have hstep : List.lookup k (((a, b) : String × AVal) ::
          (tl.map fun kv => if kv.1 == k then (kv.1, v) else kv)) =
          List.lookup k (tl.map fun kv => if kv.1 == k then (kv.1, v) else kv) := by
        simp only [List.lookup, h2]
      rw [hstep]
      exact ih htl

lemma lookup_append_fresh (k : String) (v : AVal) :
    ∀ (l : List (String × AVal)), (∀ x ∈ l, ¬ (x.1 == k) = true) →
      (l ++ [(k, v)]).lookup k = some v := by
  intro l
  induction l with
  | nil => simp [List.lookup]
  | cons hd tl ih =>
    intro hnone
    obtain ⟨a, b⟩ := hd
    have hhd : ¬ (a == k) = true := hnone (a, b) (List.mem_cons_self (a, b) tl)
    have hne : (k == a) = false := by
      rw [beq_eq_false_iff_ne]
      intro hh
      exact hhd (beq_iff_eq.mpr hh.symm)
    simp only [List.cons_append, List.lookup, hne]
    exact ih fun x hx => hnone x (List.mem_cons_of_mem (a, b) hx)

lemma lookup_setAttr (l : List (String × AVal)) (k : String) (v : AVal) :
    (setAttr l k v).lookup k = some v := by
  unfold setAttr
  by_cases hany : l.any (fun kv => kv.1 == k) = true
  · rw [if_pos hany]
    exact lookup_map_overwrite k v l hany
  · rw [if_neg hany]
    exact lookup_append_fresh k v l fun x hx hpx =>
      hany (List.any_eq_true.mpr ⟨x, hx, hpx⟩)

/-- Claim C2: when every consecutive edge of a chain carries a single
length value, the synthetic edge's length attribute is exactly the sum
of those values, and the sum is order-independent: any permutation of
the values yields the same length. -/
theorem length_conservation (G : Graph) (path : List Nat) (ls ls' : List ℚ)
    (hlen : (chainEdges G path).map (edgeKeyVals "length")
        = ls.map fun q => [AVal.scalar q])
    (hperm : ls.Perm ls') :
    attrGet (newEdge G path) "length" = AVal.scalar ls.sum
    ∧ ls.sum = ls'.sum := by
  refine ⟨?_, hperm.sum_eq⟩
  have h1 : attrGet (newEdge G path) "length" = AVal.scalar (newEdgeLength G path) := by
    unfold attrGet newEdge
    rw [lookup_setAttr]
    rfl
  rw [h1]
  congr 1
  unfold newEdgeLength lengthOfVals
  rw [attrVals_accumAttrs, List.flatMap_def, hlen]
  have hflat : ∀ (l : List ℚ),
      (((l.map fun q => [AVal.scalar q]).flatten.map AVal.toQ)).sum = l.sum := by
    intro l
    induction l with
    | nil => rfl
    | cons q t ih =>
      rw [List.map_cons, List.flatten_cons, List.map_append, List.sum_append, ih]
      simp [AVal.toQ]
  exact hflat ls

/-- Claim C2 witness on the line-graph chain with lengths 3 and 4 and
their swapped permutation. -/
theorem length_conservation_w :
    (chainEdges exLine [1, 2, 3]).map (edgeKeyVals "length")
        = [(3 : ℚ), 4].map (fun q => [AVal.scalar q])
    ∧ ([(3 : ℚ), 4]).Perm [(4 : ℚ), 3]
    ∧ (attrGet (newEdge exLine [1, 2, 3]) "length" = AVal.scalar ([(3 : ℚ), 4]).sum
        ∧ ([(3 : ℚ), 4]).sum = ([(4 : ℚ), 3]).sum) :=
  ⟨by decide, by decide,
    length_conservation exLine [1, 2, 3] [3, 4] [4, 3] (by decide) (by decide)⟩

lemma dedup_map_scalar : ∀ (qs : List ℚ),
    (qs.map AVal.scalar).dedup = qs.dedup.map AVal.scalar := by
  intro qs
  induction qs with
  | nil => rfl
  | cons q t ih =>
    by_cases hq : q ∈ t
    · have hq' : AVal.scalar q ∈ t.map AVal.scalar := List.mem_map_of_mem AVal.scalar hq
      rw [List.map_cons, List.dedup_cons_of_mem hq', List.dedup_cons_of_mem hq, ih]
    · have hq' : AVal.scalar q ∉ t.map AVal.scalar := by
        intro hmem
        obtain ⟨x, hx, hxe⟩ := List.mem_map.mp hmem
        cases hxe
        exact hq hx
      rw [List.map_cons, List.dedup_cons_of_not_mem hq', List.dedup_cons_of_not_mem hq,
        List.map_cons, ih]

lemma dedup_all_eq : ∀ (qs : List ℚ) (q : ℚ), qs ≠ [] → (∀ x ∈ qs, x = q) →
    qs.dedup = [q] := by
  intro qs
  induction qs with
  | nil => intro q h; exact absurd rfl h
  | cons a t ih =>
    intro q _ hall
    have ha : a = q := hall a (List.mem_cons_self a t)
    subst ha
    cases t with
    | nil => rfl
    | cons b t' =>
      have hb : a ∈ b :: t' := by
        have : b = a := (hall b (by simp)).trans rfl
        simp [this]
      rw [List.dedup_cons_of_mem hb]
      exact ih a (by simp) fun x hx => hall x (List.mem_cons_of_mem a hx)

lemma dedup_length_one_iff (qs : List ℚ) (hqs : qs ≠ []) :
    qs.dedup.length = 1 ↔ ∃ q, ∀ x ∈ qs, x = q := by
  constructor
  · intro h
    obtain ⟨q, hq⟩ := List.length_eq_one.mp h
    exact ⟨q, fun x hx => by
      have : x ∈ qs.dedup := List.mem_dedup.mpr hx
      rw [hq] at this
      simpa using this⟩
  · rintro ⟨q, hq⟩
    rw [dedup_all_eq qs q hqs hq]
    rfl

/-- Claim C6: merging a non-length attribute whose accumulated scalar
values are all identical yields that single scalar; merging one with
several distinct values yields the duplicate-free collection of the
distinct values; the length values are always summed, never
deduplicated, even when they are all equal. -/
theorem attr_merge_rule (k : String) (qs : List ℚ) (q0 : ℚ)
    (hk : ¬ k = "length") (hqs : qs ≠ []) :
    ((∀ x ∈ qs, x = q0) → consolidate k (qs.map AVal.scalar) = AVal.scalar q0)
    ∧ ((¬ ∃ q, ∀ x ∈ qs, x = q) →
        consolidate k (qs.map AVal.scalar) = AVal.multi qs.dedup
        ∧ qs.dedup.Nodup ∧ ∀ x, x ∈ qs.dedup ↔ x ∈ qs)
    ∧ lengthOfVals (qs.map AVal.scalar) = qs.sum
    ∧ ∀ m : Nat, lengthOfVals (List.replicate m (AVal.scalar q0)) = (m : ℚ) * q0 := by
  have hmapq : (qs.map AVal.scalar).map AVal.toQ = qs := by
    rw [List.map_map]
    have : (AVal.toQ ∘ AVal.scalar) = id := by
      funext x
      rfl
    rw [this, List.map_id]
  have hlen2 : (qs.map AVal.scalar).dedup.length = qs.dedup.length := by
    rw [dedup_map_scalar, List.length_map]
  refine ⟨?_, ?_, ?_, ?_⟩
  · intro hall
    have h1 : (qs.map AVal.scalar).dedup.length = 1 := by
      rw [hlen2]
      exact (dedup_length_one_iff qs hqs).mpr ⟨q0, hall⟩
    unfold consolidate
    rw [if_pos]
    · obtain ⟨a, t, rfl⟩ := List.exists_cons_of_ne_nil hqs
      have : a = q0 := hall a (List.mem_cons_self a t)
      subst this
      rfl
    · simp [h1, hk]
  · intro hnone
    have h1 : ¬ (qs.map AVal.scalar).dedup.length = 1 := by
      rw [hlen2]
      intro hh
      exact hnone ((dedup_length_one_iff qs hqs).mp hh)
    unfold consolidate
    rw [if_neg, if_pos]
    · rw [hmapq]
      exact ⟨rfl, List.nodup_dedup qs, fun x => List.mem_dedup⟩
    · simp [hk]
    · simp [h1, hk]
  · unfold lengthOfVals
    rw [hmapq]
  · intro m
    unfold lengthOfVals
    have : (List.replicate m (AVal.scalar q0)).map AVal.toQ = List.replicate m q0 := by
      rw [List.map_replicate]
      rfl
    rw [this, List.sum_replicate, nsmul_eq_mul]

/-- Claim C6 witness at a non-length key with two distinct scalar
values. -/
theorem attr_merge_rule_w :
    (¬ ("osmid" : String) = "length") ∧ ([(1 : ℚ), 2] : List ℚ) ≠ []
    ∧ (((∀ x ∈ [(1 : ℚ), 2], x = 1) →
          consolidate "osmid" ([(1 : ℚ), 2].map AVal.scalar) = AVal.scalar 1)
        ∧ ((¬ ∃ q, ∀ x ∈ [(1 : ℚ), 2], x = q) →
            consolidate "osmid" ([(1 : ℚ), 2].map AVal.scalar) = AVal.multi ([(1 : ℚ), 2]).dedup
            ∧ ([(1 : ℚ), 2]).dedup.Nodup ∧ ∀ x, x ∈ ([(1 : ℚ), 2]).dedup ↔ x ∈ [(1 : ℚ), 2])
        ∧ lengthOfVals ([(1 : ℚ), 2].map AVal.scalar) = ([(1 : ℚ), 2]).sum
        ∧ ∀ m : Nat, lengthOfVals (List.replicate m (AVal.scalar 1)) = (m : ℚ) * 1) :=
  ⟨by decide, by decide, attr_merge_rule "osmid" [1, 2] 1 (by decide) (by decide)⟩

lemma mem_successors (G : Graph) (u s : Nat) :
    s ∈ G.successors u ↔ ∃ e ∈ G.edges, e.u = u ∧ e.v = s := by
  simp only [Graph.successors, List.mem_dedup, List.mem_map, List.mem_filter, beq_iff_eq]
  constructor
  · rintro ⟨e, ⟨he, h1⟩, h2⟩
    exact ⟨e, he, h1, h2⟩
  · rintro ⟨e, he, h1, h2⟩
    exact ⟨e, ⟨he, h1⟩, h2⟩

lemma mem_predecessors (G : Graph) (v u : Nat) :
    u ∈ G.predecessors v ↔ ∃ e ∈ G.edges, e.v = v ∧ e.u = u := by
  simp only [Graph.predecessors, List.mem_dedup, List.mem_map, List.mem_filter, beq_iff_eq]
  constructor
  · rintro ⟨e, ⟨he, h1⟩, h2⟩
    exact ⟨e, he, h1, h2⟩
  · rintro ⟨e, he, h1, h2⟩
    exact ⟨e, ⟨he, h1⟩, h2⟩

lemma succ_iff_pred (G : Graph) (u s : Nat) :
    s ∈ G.successors u ↔ u ∈ G.predecessors s := by
  rw [mem_successors, mem_predecessors]
  constructor
  · rintro ⟨e, he, h1, h2⟩
    exact ⟨e, he, h2, h1⟩
  · rintro ⟨e, he, h1, h2⟩
    exact ⟨e, he, h2, h1⟩

lemma succ_mem_nodes (G : Graph)
    (hwf : ∀ e ∈ G.edges, e.u ∈ G.nodes ∧ e.v ∈ G.nodes)
    (u s : Nat) (hs : s ∈ G.successors u) : s ∈ G.nodes := by
  obtain ⟨e, he, _, h2⟩ := (mem_successors G u s).mp hs
  exact h2 ▸ (hwf e he).2

lemma not_endpoint_props (G : Graph) (strict : Bool) (n : Nat)
    (h : is_endpoint G n strict = false) :
    (neighborsOf G n).length = 2 ∧ n ∉ neighborsOf G n := by
  unfold is_endpoint at h
  by_cases h2 : n ∈ neighborsOf G n
  · simp [h2] at h
  · refine ⟨?_, h2⟩
    by_cases h4 : (neighborsOf G n).length = 2
    · exact h4
    · simp [h2, h4] at h

lemma is_endpoint_false_of_not_mem (G : Graph) (strict : Bool) (n : Nat)
    (hn : n ∈ G.nodes) (h : n ∉ endpointList G strict) :
    is_endpoint G n strict = false := by
  rcases Bool.eq_false_or_eq_true (is_endpoint G n strict) with h1 | h1
  · exact absurd (List.mem_filter.mpr ⟨hn, h1⟩) h
  · exact h1

lemma eq_of_mem_length_two {L : List Nat} (hnd : L.Nodup) (hlen : L.length = 2)
    {a b : Nat} (ha : a ∈ L) (hb : b ∈ L) (hab : a ≠ b) :
    ∀ t ∈ L, t = a ∨ t = b := by
  obtain ⟨x, y, rfl⟩ := List.length_eq_two.mp hlen
  simp only [List.mem_cons, List.not_mem_nil, or_false, List.mem_singleton] at ha hb
  intro t ht
  simp only [List.mem_cons, List.not_mem_nil, or_false, List.mem_singleton] at ht
  rcases ha with rfl | rfl <;> rcases hb with rfl | rfl <;> tauto

lemma interiorNodes_append_single (path : List Nat) (s : Nat) (h : path ≠ []) :
    interiorNodes (path ++ [s]) = path.drop 1 := by
  obtain ⟨a, t, rfl⟩ := List.exists_cons_of_ne_nil h
  simp [interiorNodes]

lemma mem_drop_one_of_mem_interior (path : List Nat) (x : Nat)
    (h : x ∈ interiorNodes path) : x ∈ path.drop 1 :=
  (List.dropLast_sublist _).subset h

lemma closePath_extends (G : Graph) (ep path : List Nat) :
    path <+: closePath G ep path := by
  unfold closePath
  split_ifs
  · exact List.prefix_append path [path.headD 0]
  · exact List.prefix_rfl

lemma closePath_interior (G : Graph) (ep path : List Nat) (hne : path ≠ [])
    (hP : ∀ x ∈ interiorNodes path, x ∉ ep) :
    ∀ x ∈ interiorNodes (closePath G ep path), x ∉ ep := by
  unfold closePath
  split_ifs with hc
  · obtain ⟨a, t, rfl⟩ := List.exists_cons_of_ne_nil hne
    rw [interiorNodes_append_single (a :: t) _ (by simp)]
    intro x hx
    have hxt : x ∈ t := hx
    rcases List.eq_nil_or_concat t with rfl | ⟨t', z, htz⟩
    · simp at hxt
    · rw [List.concat_eq_append] at htz
      subst htz
      have hlastz : (a :: (t' ++ [z])).getLastD 0 = z := by
        rw [List.getLastD_eq_getLast?, show a :: (t' ++ [z]) = (a :: t') ++ [z] by simp,
          List.getLast?_concat]
        rfl
      rcases List.mem_append.mp hxt with hx' | hx'
      · have : x ∈ interiorNodes (a :: (t' ++ [z])) := by
          simpa [interiorNodes] using hx'
        exact hP x this
      · have : x = z := by simpa using hx'
        subst this
        exact hlastz ▸ hc.1
  · exact hP

lemma bp_loop_keeps_interior (G : Graph) (strict : Bool)
    (hwf : ∀ e ∈ G.edges, e.u ∈ G.nodes ∧ e.v ∈ G.nodes)
    (recur : Nat → List Nat → Option (List Nat))
    (hrec : ∀ n path out, n ∈ G.nodes → n ∉ endpointList G strict →
      path.getLast? = some n →
      (∃ prev, prev ∈ G.predecessors n ∧ prev ∈ path) →
      (∀ x ∈ path.drop 1, x ∉ endpointList G strict) →
      recur n path = some out →
      path <+: out ∧ ∀ x ∈ interiorNodes out, x ∉ endpointList G strict) :
    ∀ succs X path out, X ∈ G.nodes → X ∉ endpointList G strict →
      path.getLast? = some X →
      (∃ prev, prev ∈ G.predecessors X ∧ prev ∈ path) →
      (∀ x ∈ path.drop 1, x ∉ endpointList G strict) →
      (∀ s ∈ succs, s ∈ G.successors X) →
      bp_loop G (endpointList G strict) recur succs path = some out →
      path <+: out ∧ ∀ x ∈ interiorNodes out, x ∉ endpointList G strict := by
  intro succs
  induction succs with
  | nil =>
    intro X path out _ _ hlast _ hQ _ hbp
    rw [bp_loop] at hbp
    injection hbp with hbp
    subst hbp
    have hne : path ≠ [] := by
      intro hh
      rw [hh] at hlast
      simp at hlast
    exact ⟨closePath_extends G _ path,
      closePath_interior G _ path hne fun x hx => hQ x (mem_drop_one_of_mem_interior path x hx)⟩
  | cons s rest ih =>
    intro X path out hX hXep hlast hprev hQ hsub hbp
    rw [bp_loop] at hbp
    have hne : path ≠ [] := by
      intro hh
      rw [hh] at hlast
      simp at hlast
    by_cases hsp : s ∈ path
    · rw [if_pos hsp] at hbp
      exact ih X path out hX hXep hlast hprev hQ
        (fun t ht => hsub t (List.mem_cons_of_mem s ht)) hbp
    · rw [if_neg hsp] at hbp
      by_cases hse : s ∈ endpointList G strict
      · rw [if_pos hse] at hbp
        injection hbp with hbp
        subst hbp
        refine ⟨List.prefix_append path [s], ?_⟩
        rw [interiorNodes_append_single path s hne]
        exact hQ
      · rw [if_neg hse] at hbp
        have hsX : s ∈ G.successors X := hsub s (List.mem_cons_self s rest)
        cases hrc : recur s (path ++ [s]) with
        | none =>
          rw [hrc] at hbp
          exact absurd hbp (by simp)
        | some p =>
          rw [hrc] at hbp
          have hsn : s ∈ G.nodes := succ_mem_nodes G hwf X s hsX
          have hXp : X ∈ path := by
            obtain ⟨hh, heq⟩ := List.mem_getLast?_eq_getLast (Option.mem_def.mpr hlast)
            rw [heq]
            exact List.getLast_mem hh
          have hQ' : ∀ x ∈ (path ++ [s]).drop 1, x ∉ endpointList G strict := by
            obtain ⟨a, t, rfl⟩ := List.exists_cons_of_ne_nil hne
            intro x hx
            simp only [List.cons_append, List.drop_succ_cons, List.drop_zero] at hx
            rcases List.mem_append.mp hx with h | h
            · exact hQ x h
            · have : x = s := by simpa using h
              subst this
              exact hse
          obtain ⟨hpre, hPp⟩ := hrec s (path ++ [s]) p hsn hse
            (List.getLast?_concat path)
            ⟨X, (succ_iff_pred G X s).mp hsX, List.mem_append_left _ hXp⟩
            hQ' hrc
          have hXfalse : is_endpoint G X strict = false :=
            is_endpoint_false_of_not_mem G strict X hX hXep
          obtain ⟨hn2, _⟩ := not_endpoint_props G strict X hXfalse
          obtain ⟨prev, hpp, hppath⟩ := hprev
          have hprevnb : prev ∈ neighborsOf G X :=
            List.mem_dedup.mpr (List.mem_append_left _ hpp)
          have hsnb : s ∈ neighborsOf G X :=
            List.mem_dedup.mpr (List.mem_append_right _ hsX)
          have hps : prev ≠ s := fun hh => hsp (hh ▸ hppath)
          have hall : ∀ t ∈ rest, t ∈ p := by
            intro t ht
            have htnb : t ∈ neighborsOf G X :=
              List.mem_dedup.mpr
                (List.mem_append_right _ (hsub t (List.mem_cons_of_mem s ht)))
            rcases eq_of_mem_length_two (List.nodup_dedup _) hn2 hprevnb hsnb hps t htnb with
              rfl | rfl
            · exact hpre.subset (List.mem_append_left _ hppath)
            · exact hpre.subset (List.mem_append_right _ (by simp))
          have hbp2 : bp_loop G (endpointList G strict) recur rest p = some out := hbp
          rw [bp_loop_skip_all G _ recur rest p hall] at hbp2
          injection hbp2 with hbp2
          subst hbp2
          have hpne : p ≠ [] := by
            intro hh
            rw [hh] at hpre
            have := List.prefix_nil.mp hpre
            simp at this
          exact ⟨((List.prefix_append path [s]).trans hpre).trans (closePath_extends G _ p),
            closePath_interior G _ p hpne hPp⟩

lemma build_path_keeps_interior (G : Graph) (strict : Bool)
    (hwf : ∀ e ∈ G.edges, e.u ∈ G.nodes ∧ e.v ∈ G.nodes) :
    ∀ fuel n path out, n ∈ G.nodes → n ∉ endpointList G strict →
      path.getLast? = some n →
      (∃ prev, prev ∈ G.predecessors n ∧ prev ∈ path) →
      (∀ x ∈ path.drop 1, x ∉ endpointList G strict) →
      build_path G (endpointList G strict) fuel n path = some out →
      path <+: out ∧ ∀ x ∈ interiorNodes out, x ∉ endpointList G strict := by
  intro fuel
  induction fuel with
  | zero =>
    intro n path out _ _ _ _ _ hbp
    exact absurd hbp (by simp [build_path])
  | succ f ih =>
    intro n path out h1 h2 h3 h4 h5 hbp
    rw [build_path] at hbp
    exact bp_loop_keeps_interior G strict hwf (build_path G (endpointList G strict) f) ih
      (G.successors n) n path out h1 h2 h3 h4 h5 (fun _ hs => hs) hbp

lemma mem_get_paths (G : Graph) (strict : Bool) (fuel : Nat) (p : List Nat)
    (hp : p ∈ get_paths_to_simplify G strict fuel) :
    ∃ E s, E ∈ endpointList G strict ∧ s ∈ G.successors E ∧ s ∉ endpointList G strict ∧
      build_path G (endpointList G strict) fuel s [E, s] = some p := by
  unfold get_paths_to_simplify at hp
  obtain ⟨E, hE, hmem⟩ := List.mem_flatMap.mp hp
  obtain ⟨s, hs, hf⟩ := List.mem_filterMap.mp hmem
  by_cases hse : s ∈ endpointList G strict
  · rw [if_pos hse] at hf
    exact absurd hf (by simp)
  · rw [if_neg hse] at hf
    exact ⟨E, s, hE, hs, hse, hf⟩

/-- Claim C3: a node whose IsCentroid attribute equals 1 is always
classified as an endpoint and survives simplification on any
well-formed graph, whatever its degree or neighbor count. -/
theorem centroid_preserved (G : Graph) (strict : Bool) (fuel : Nat) (c : Nat)
    (hwf : ∀ e ∈ G.edges, e.u ∈ G.nodes ∧ e.v ∈ G.nodes)
    (hc : c ∈ G.nodes)
    (hcent : (G.node c).IsCentroid = some 1) :
    is_endpoint G c strict = true
    ∧ ∀ G', simplify_graph G strict fuel = Except.ok G' → c ∈ G'.nodes := by
  have hep : is_endpoint G c strict = true := by
    simp [is_endpoint, hcent]
  refine ⟨hep, ?_⟩
  intro G' hG'
  have hcep : c ∈ endpointList G strict := List.mem_filter.mpr ⟨hc, hep⟩
  unfold simplify_graph at hG'
  by_cases hsimp : is_simplified G = true
  · rw [if_pos hsimp] at hG'
    exact absurd hG' (by simp)
  · rw [if_neg hsimp] at hG'
    have hnotrem : c ∉ (get_paths_to_simplify G strict fuel).flatMap interiorNodes := by
      intro hmem
      obtain ⟨p, hp, hcint⟩ := List.mem_flatMap.mp hmem
      obtain ⟨E, s, hE, hs, hse, hbp⟩ := mem_get_paths G strict fuel p hp
      have hsn : s ∈ G.nodes := succ_mem_nodes G hwf E s hs
      obtain ⟨_, hint⟩ := build_path_keeps_interior G strict hwf fuel s [E, s] p hsn hse rfl
        ⟨E, (succ_iff_pred G E s).mp hs, by simp⟩
        (by
          intro x hx
          have : x = s := by simpa using hx
          subst this
          exact hse)
        hbp
      exact hint c hcint hcep
    injection hG' with hG2
    subst hG2
    refine List.mem_filter.mpr ⟨hc, ?_⟩
    simpa using hnotrem

/-- Claim C3 witness at the centroid middle node of the line graph. -/
theorem centroid_preserved_w :
    (∀ e ∈ exCentroidLine.edges, e.u ∈ exCentroidLine.nodes ∧ e.v ∈ exCentroidLine.nodes)
    ∧ 2 ∈ exCentroidLine.nodes
    ∧ (exCentroidLine.node 2).IsCentroid = some 1
    ∧ (is_endpoint exCentroidLine 2 true = true
        ∧ ∀ G', simplify_graph exCentroidLine true 10 = Except.ok G' → 2 ∈ G'.nodes) :=
  ⟨by decide, by decide, by decide,
    centroid_preserved exCentroidLine true 10 2 (by decide) (by decide) (by decide)⟩

end OsmnxSimplify
